import Mathlib

/-!
# Verification of the resumable sending engine of `ai-job-application-mailer`

This file gives a shallow embedding, in Lean, of the core control logic of
`src/main.py`: the blocklist (`BlockedDomainsManager`), the per-identity
progress ledger (`SendingStateManager`) and the sending loop
(`JobApplicationSystem.run_sending_process` together with
`JobApplicationSystem.send_email`), and proves the specified properties of
that logic.

External effects are modelled explicitly:
* JSON files are a `Storage` map from file name to stored ledger state;
* the content generator is an oracle `Nat → Option GeneratedContent`
  giving, per list position, the parsed result of
  `generate_email_content` (`none` models a failure or unparsable reply);
* the Gmail `send` call is an oracle `Nat → ApiResult` giving, per list
  position, the behaviour of the underlying API call (success, `HttpError`
  with a status code, or some other exception).

The engine run returns, besides the final ledger state and storage, a
trace: the per-position events, the positions at which the content
generator was invoked, the positions at which the delivery transport was
invoked, and the `mark_sent` calls performed.
-/

namespace Mailer

/-! ## Python string primitives

The string operations the source uses (`str.lower`, `str.strip`,
`str.split('@')`, `str.replace`) are embedded as structurally recursive
functions over the character list of a `String`, so that all definitions
reduce on concrete inputs. -/

/-- `str.lower()` (ASCII case folding, which covers every string the
program manipulates). -/
def lowerStr (s : String) : String :=
  String.mk (s.data.map Char.toLower)

/-- The characters `str.strip()` removes. -/
def isPySpace (c : Char) : Bool :=
  c = ' ' || c = '\t' || c = '\n' || c = '\r' || c = Char.ofNat 11 || c = Char.ofNat 12

/-- `str.strip()`: remove leading and trailing whitespace. -/
def stripStr (s : String) : String :=
  String.mk (((s.data.dropWhile isPySpace).reverse.dropWhile isPySpace).reverse)

/-- `str.split(sep)` for a one-character separator, on character lists. -/
def splitOnChar (sep : Char) : List Char → List (List Char)
  | [] => [[]]
  | c :: cs =>
    let r := splitOnChar sep cs
    if c = sep then [] :: r
    else
      match r with
      | [] => [[c]]
      | y :: ys => (c :: y) :: ys

/-- `str.replace(pat, rep)` for a one-character pattern, on character lists. -/
def replaceChar (pat : Char) (rep : List Char) : List Char → List Char
  | [] => []
  | c :: cs => (if c = pat then rep else [c]) ++ replaceChar pat rep cs

/-! ## Blocklist Store (`BlockedDomainsManager`) -/

/-- The persisted blocklist data: `{'blocked_domains': [...], 'blocked_emails': [...]}`. -/
structure BlockedData where
  blocked_domains : List String
  blocked_emails : List String
  deriving Repr, DecidableEq

/-- The state `BlockedDomainsManager.load` returns when the file is absent. -/
def emptyBlocked : BlockedData := ⟨[], []⟩

/-- One step of `BlockedDomainsManager.add_domains`: normalize (strip + lower),
insert only when non-empty and not already present. -/
def add_domain1 (d : BlockedData) (x : String) : BlockedData :=
  let x := lowerStr (stripStr x)
  if x ≠ "" ∧ x ∉ d.blocked_domains then
    { d with blocked_domains := d.blocked_domains ++ [x] }
  else d

/-- `BlockedDomainsManager.add_domains`. -/
def add_domains (d : BlockedData) (xs : List String) : BlockedData :=
  xs.foldl add_domain1 d

/-- One step of `BlockedDomainsManager.add_emails`. -/
def add_email1 (d : BlockedData) (x : String) : BlockedData :=
  let x := lowerStr (stripStr x)
  if x ≠ "" ∧ x ∉ d.blocked_emails then
    { d with blocked_emails := d.blocked_emails ++ [x] }
  else d

/-- `BlockedDomainsManager.add_emails`. -/
def add_emails (d : BlockedData) (xs : List String) : BlockedData :=
  xs.foldl add_email1 d

/-- `email.split('@')[-1] if '@' in email else ''`: the substring after the
last `@`, or the empty string when there is no `@`. -/
def domainOf (email : String) : String :=
  if email.data.contains '@' then
    String.mk ((((splitOnChar '@' email.data).getLast?).getD []))
  else ""

/-- `BlockedDomainsManager.is_blocked`. -/
def is_blocked (d : BlockedData) (email : String) : Bool :=
  let email := lowerStr (stripStr email)
  if email ∈ d.blocked_emails then true
  else decide (domainOf email ∈ d.blocked_domains)

/-- Blocklist states reachable from the empty store through the two mutating
operations of `BlockedDomainsManager`. -/
inductive ReachableBlocked : BlockedData → Prop where
  | init : ReachableBlocked emptyBlocked
  | domains (d : BlockedData) (xs : List String) :
      ReachableBlocked d → ReachableBlocked (add_domains d xs)
  | emails (d : BlockedData) (xs : List String) :
      ReachableBlocked d → ReachableBlocked (add_emails d xs)

/-! ## Progress Ledger (`SendingStateManager`) -/

/-- The per-identity ledger record:
`{'last_index_sent': int, 'sent_emails': [str], 'last_run_date': str|null}`.
Timestamps are abstracted to natural numbers. -/
structure SendingState where
  last_index_sent : Int
  sent_emails : List String
  last_run_date : Option Nat
  deriving Repr, DecidableEq

/-- The zero state returned by `SendingStateManager.load` when no file exists. -/
def zeroState : SendingState := ⟨-1, [], none⟩

/-- The durable store of ledger files: file name to stored state. -/
def Storage : Type := String → Option SendingState

/-- A storage with no ledger file. -/
def emptyStorage : Storage := fun _ => none

/-- `SendingStateManager.load` for a given file name. -/
def loadState (σ : Storage) (key : String) : SendingState :=
  (σ key).getD zeroState

/-- The effect of `SendingStateManager.save` on the durable store (writing the
full state under the manager's file name). -/
def persist (σ : Storage) (key : String) (st : SendingState) : Storage :=
  fun k => if k = key then some st else σ k

/-- The file name `SendingStateManager.__init__` derives from the sender
identity: `state_` + identity with `@` replaced by `_at_` and `.` by `_`,
plus `.json`. -/
def fileKeyOf (sender_email : String) : String :=
  String.mk ("state_".data ++
    replaceChar '.' ['_'] (replaceChar '@' ['_', 'a', 't', '_'] sender_email.data) ++
    ".json".data)

/-- `SendingStateManager.was_sent`: case-insensitive membership in `sent_emails`. -/
def was_sent (st : SendingState) (email : String) : Bool :=
  (st.sent_emails.map lowerStr).contains (lowerStr email)

/-- The in-memory effect of `SendingStateManager.mark_sent` followed by the
timestamping done in `save`: set the cursor unconditionally, append the
lower-cased email unless already present case-insensitively, stamp the run
date.  The membership test `email.lower() in [e.lower() for e in sent_emails]`
is the same computation as `was_sent`. -/
def mark_sent (st : SendingState) (index : Int) (email : String) (now : Nat) :
    SendingState :=
  let st1 := { st with last_index_sent := index }
  let st2 :=
    if was_sent st1 email then st1
    else { st1 with sent_emails := st1.sent_emails ++ [lowerStr email] }
  { st2 with last_run_date := some now }

/-! ## Delivery transport (`JobApplicationSystem.send_email`) -/

/-- Behaviour of the underlying Gmail API call for one message: it either
succeeds, raises an `HttpError` carrying an HTTP status, or raises some
other exception. -/
inductive ApiResult where
  | ok
  | httpError (status : Nat)
  | otherError
  deriving Repr, DecidableEq

/-- The three return values of `send_email`: `True`, `"QUOTA_ERROR"`, `False`. -/
inductive SendResult where
  | delivered
  | quotaError
  | failed
  deriving Repr, DecidableEq

/-- `JobApplicationSystem.send_email`, given the behaviour of the API call:
no exception returns `True`; an `HttpError` with status 403 or 429 returns
`"QUOTA_ERROR"`; any other `HttpError` returns `False`; any other exception
is not caught and propagates (`Except.error`). -/
def send_email (r : ApiResult) : Except Unit SendResult :=
  match r with
  | ApiResult.ok => Except.ok SendResult.delivered
  | ApiResult.httpError s =>
      if s = 403 ∨ s = 429 then Except.ok SendResult.quotaError
      else Except.ok SendResult.failed
  | ApiResult.otherError => Except.error ()

/-! ## Sending Engine (`JobApplicationSystem.run_sending_process`) -/

/-- One row of `recipients.csv`. -/
structure Recipient where
  company_name : String
  recipient_name : String
  designation : String
  email : String
  job_title : String
  job_url : String
  deriving Repr, DecidableEq

/-- A parsed `generate_email_content` result. -/
structure GeneratedContent where
  subject : String
  body : String
  deriving Repr, DecidableEq

/-- The run environment: the content-generation oracle, the API-call oracle
and the clock, all indexed by list position. -/
structure RunEnv where
  gen : Nat → Option GeneratedContent
  api : Nat → ApiResult
  clock : Nat → Nat

/-- The per-position event recorded by the loop body. -/
inductive StepEvent where
  | skipped (i : Nat)
  | contentFailed (i : Nat)
  | previewed (i : Nat)
  | delivered (i : Nat)
  | quotaStopped (i : Nat)
  | sendFailed (i : Nat)
  | aborted (i : Nat)
  deriving Repr, DecidableEq

/-- The position an event is about. -/
def StepEvent.index : StepEvent → Nat
  | StepEvent.skipped i => i
  | StepEvent.contentFailed i => i
  | StepEvent.previewed i => i
  | StepEvent.delivered i => i
  | StepEvent.quotaStopped i => i
  | StepEvent.sendFailed i => i
  | StepEvent.aborted i => i

/-- The outcome of a run: the event trace in loop order, the positions at
which the content generator was invoked, the positions at which the delivery
transport was invoked, the `mark_sent` calls (position, email) in call
order, and the final ledger state and durable store. -/
structure RunResult where
  events : List StepEvent
  genCalls : List Nat
  sendCalls : List Nat
  markCalls : List (Nat × String)
  state : SendingState
  storage : Storage

/-- The loop of `run_sending_process` over the remaining recipients, where
`i` is the absolute position of the head of the list, `startIndex` the
position the run started from (used by the test-mode preview limit), `st`
the in-memory ledger state and `σ` the durable store. -/
def processList (env : RunEnv) (blocked : BlockedData) (testMode : Bool)
    (key : String) (startIndex : Nat) :
    List Recipient → Nat → SendingState → Storage → RunResult
  | [], _i, st, σ => ⟨[], [], [], [], st, σ⟩
  | r :: rs, i, st, σ =>
    if is_blocked blocked r.email || was_sent st r.email then
      let rest := processList env blocked testMode key startIndex rs (i + 1) st σ
      { rest with events := StepEvent.skipped i :: rest.events }
    else
      match env.gen i with
      | none =>
          let rest := processList env blocked testMode key startIndex rs (i + 1) st σ
          { rest with
              events := StepEvent.contentFailed i :: rest.events
              genCalls := i :: rest.genCalls }
      | some _c =>
          if testMode then
            if startIndex + 2 ≤ i then
              ⟨[StepEvent.previewed i], [i], [], [], st, σ⟩
            else
              let rest := processList env blocked testMode key startIndex rs (i + 1) st σ
              { rest with
                  events := StepEvent.previewed i :: rest.events
                  genCalls := i :: rest.genCalls }
          else
            match send_email (env.api i) with
            | Except.error _ =>
                ⟨[StepEvent.aborted i], [i], [i], [], st, σ⟩
            | Except.ok SendResult.delivered =>
                let st2 := mark_sent st ((i : Int)) r.email (env.clock i)
                let σ2 := persist σ key st2
                let rest := processList env blocked testMode key startIndex rs (i + 1) st2 σ2
                { rest with
                    events := StepEvent.delivered i :: rest.events
                    genCalls := i :: rest.genCalls
                    sendCalls := i :: rest.sendCalls
                    markCalls := (i, r.email) :: rest.markCalls }
            | Except.ok SendResult.quotaError =>
                ⟨[StepEvent.quotaStopped i], [i], [i], [], st, σ⟩
            | Except.ok SendResult.failed =>
                let rest := processList env blocked testMode key startIndex rs (i + 1) st σ
                { rest with
                    events := StepEvent.sendFailed i :: rest.events
                    genCalls := i :: rest.genCalls
                    sendCalls := i :: rest.sendCalls }

/-- `run_sending_process`: resolve `start_index = last_index_sent + 1` and
run the loop from there over the rest of the recipient list. -/
def run_sending_process (env : RunEnv) (blocked : BlockedData)
    (recipients : List Recipient) (testMode : Bool) (key : String)
    (st : SendingState) (σ : Storage) : RunResult :=
  let startIndex := (st.last_index_sent + 1).toNat
  processList env blocked testMode key startIndex
    (recipients.drop startIndex) startIndex st σ

/-! ## Durability model of `SendingStateManager.save`

`save` persists the ledger with `open(self.file_path, 'w')` followed by
`json.dump(self.state, f, indent=2)`: the existing file is truncated and the
serialized text is then written front to back, in place.  A process crash
after `c` characters have been written therefore leaves exactly the first
`c` characters of the new serialization on disk.  The rendering below
abstracts the precise `json.dump` layout but keeps what the atomicity
question depends on: the whole state is one serialized text, written
sequentially. -/

/-- Rendering of the `sent_emails` JSON array elements. -/
def renderList : List String → String
  | [] => ""
  | [e] => "\"" ++ e ++ "\""
  | e :: rest => "\"" ++ e ++ "\", " ++ renderList rest

/-- Rendering of the `last_run_date` JSON value. -/
def renderDate : Option Nat → String
  | none => "null"
  | some t => "\"" ++ toString t ++ "\""

/-- The serialized text `save` writes for a ledger state. -/
def serializeState (st : SendingState) : String :=
  "\x7b\"last_index_sent\": " ++ toString st.last_index_sent ++
    ", \"sent_emails\": [" ++ renderList st.sent_emails ++
    "], \"last_run_date\": " ++ renderDate st.last_run_date ++ "\x7d"

/-- The durable content of the ledger file when the process crashes after
`c` characters of the in-place rewrite have reached the disk. -/
def fileAfterCrash (newContent : String) (c : Nat) : String :=
  String.mk (newContent.data.take c)

/-! ## Concrete fixtures used by the witnesses -/

/-- A sample recipient row. -/
def oneRecipient : Recipient := ⟨"Acme", "HR", "Mgr", "a@b.c", "Dev", "u"⟩

/-- A second sample recipient row. -/
def otherRecipient : Recipient := ⟨"Octan", "HR", "Mgr", "d@e.f", "Dev", "v"⟩

/-- An environment where content generation succeeds and every API call
succeeds. -/
def envDeliver : RunEnv := ⟨fun _ => some ⟨"s", "b"⟩, fun _ => ApiResult.ok, fun _ => 7⟩

/-- An environment where content generation succeeds and every API call
raises `HttpError` with status 429. -/
def envQuota : RunEnv := ⟨fun _ => some ⟨"s", "b"⟩, fun _ => ApiResult.httpError 429, fun _ => 7⟩

/-- An environment where content generation succeeds and every API call
raises an exception that is not an `HttpError`. -/
def envAbort : RunEnv := ⟨fun _ => some ⟨"s", "b"⟩, fun _ => ApiResult.otherError, fun _ => 7⟩

/-! ## Case-folding lemmas -/

theorem toNat_ofNat_valid (n : Nat) (h : n.isValidChar) : (Char.ofNat n).toNat = n := by
  simp [Char.ofNat, dif_pos h, Char.ofNatAux, Char.toNat, UInt32.toNat, BitVec.toNat_ofNatLt]

theorem char_toLower_idem (c : Char) : c.toLower.toLower = c.toLower := by
  by_cases h : 65 ≤ c.toNat ∧ c.toNat ≤ 90
  · have hv : (c.toNat + 32).isValidChar := Or.inl (by omega)
    have ht : (Char.ofNat (c.toNat + 32)).toNat = c.toNat + 32 := toNat_ofNat_valid _ hv
    simp only [Char.toLower]
    rw [if_pos h, if_neg (by rw [ht]; omega)]
  · simp only [Char.toLower]
    rw [if_neg h, if_neg h]

theorem lowerStr_idem (s : String) : lowerStr (lowerStr s) = lowerStr s := by
  unfold lowerStr
  congr 1
  rw [List.map_map]
  exact List.map_congr_left fun a _ => char_toLower_idem a

/-! ## Ledger lemmas -/

theorem mark_sent_last_index (st : SendingState) (p : Int) (e : String) (now : Nat) :
    (mark_sent st p e now).last_index_sent = p := by
  simp only [mark_sent]
  split <;> rfl

theorem mark_sent_run_date (st : SendingState) (p : Int) (e : String) (now : Nat) :
    (mark_sent st p e now).last_run_date = some now := by
  simp only [mark_sent]

theorem mark_sent_sent_emails (st : SendingState) (p : Int) (e : String) (now : Nat) :
    (was_sent st e = true → (mark_sent st p e now).sent_emails = st.sent_emails) ∧
    (was_sent st e = false →
      (mark_sent st p e now).sent_emails = st.sent_emails ++ [lowerStr e]) := by
  constructor
  · intro h
    simp only [mark_sent]
    split
    case isTrue hc => rfl
    case isFalse hc =>
      exact absurd (show was_sent { st with last_index_sent := p } e = true from h) hc
  · intro h
    simp only [mark_sent]
    split
    case isTrue hc =>
      have hc2 : was_sent st e = true := hc
      rw [h] at hc2
      exact Bool.noConfusion hc2
    case isFalse hc => rfl

theorem mark_sent_sublist (st : SendingState) (p : Int) (e : String) (now : Nat) :
    st.sent_emails.Sublist (mark_sent st p e now).sent_emails := by
  simp only [mark_sent]
  split
  · exact List.Sublist.refl _
  · exact List.sublist_append_left _ _

theorem was_sent_mark_sent_mono (st : SendingState) (p : Int) (e2 : String) (now : Nat)
    (e : String) (h : was_sent st e = true) : was_sent (mark_sent st p e2 now) e = true := by
  simp only [mark_sent]
  split
  · exact h
  · simp only [was_sent] at h ⊢
    simp only [List.map_append, List.map_cons, List.map_nil]
    simp_all

theorem was_sent_mark_sent_self (st : SendingState) (p : Int) (e : String) (now : Nat) :
    was_sent (mark_sent st p e now) e = true := by
  simp only [mark_sent]
  split
  case isTrue h => exact h
  case isFalse h => simp [was_sent, lowerStr_idem]

/-! ## Loop trace lemmas -/

theorem processList_index_ge (env : RunEnv) (blocked : BlockedData) (tm : Bool)
    (key : String) (s0 : Nat) :
    ∀ (rs : List Recipient) (i : Nat) (st : SendingState) (σ : Storage),
      (∀ ev ∈ (processList env blocked tm key s0 rs i st σ).events, i ≤ ev.index) ∧
      (∀ j ∈ (processList env blocked tm key s0 rs i st σ).genCalls, i ≤ j) ∧
      (∀ j ∈ (processList env blocked tm key s0 rs i st σ).sendCalls, i ≤ j) ∧
      (∀ m ∈ (processList env blocked tm key s0 rs i st σ).markCalls, i ≤ m.1) := by
  intro rs
  induction rs with
  | nil => intro i st σ; simp [processList]
  | cons r rs ih =>
    intro i st σ
    simp only [processList]
    split
    · obtain ⟨h1, h2, h3, h4⟩ := ih (i + 1) st σ
      refine ⟨fun ev hev => ?_, fun j hj => le_trans (Nat.le_succ i) (h2 j hj),
        fun j hj => le_trans (Nat.le_succ i) (h3 j hj),
        fun m hm => le_trans (Nat.le_succ i) (h4 m hm)⟩
      rcases List.mem_cons.mp hev with rfl | hev
      · simp [StepEvent.index]
      · exact le_trans (Nat.le_succ i) (h1 ev hev)
    · split
      · obtain ⟨h1, h2, h3, h4⟩ := ih (i + 1) st σ
        refine ⟨fun ev hev => ?_, fun j hj => ?_,
          fun j hj => le_trans (Nat.le_succ i) (h3 j hj),
          fun m hm => le_trans (Nat.le_succ i) (h4 m hm)⟩
        · rcases List.mem_cons.mp hev with rfl | hev
          · simp [StepEvent.index]
          · exact le_trans (Nat.le_succ i) (h1 ev hev)
        · rcases List.mem_cons.mp hj with rfl | hj
          · exact Nat.le.refl
          · exact le_trans (Nat.le_succ i) (h2 j hj)
      · split
        · split
          · refine ⟨fun ev hev => ?_, fun j hj => ?_, fun j hj => ?_, fun m hm => ?_⟩ <;>
              simp_all [StepEvent.index]
          · obtain ⟨h1, h2, h3, h4⟩ := ih (i + 1) st σ
            refine ⟨fun ev hev => ?_, fun j hj => ?_,
              fun j hj => le_trans (Nat.le_succ i) (h3 j hj),
              fun m hm => le_trans (Nat.le_succ i) (h4 m hm)⟩
            · rcases List.mem_cons.mp hev with rfl | hev
              · simp [StepEvent.index]
              · exact le_trans (Nat.le_succ i) (h1 ev hev)
            · rcases List.mem_cons.mp hj with rfl | hj
              · exact Nat.le.refl
              · exact le_trans (Nat.le_succ i) (h2 j hj)
        · split
          · refine ⟨fun ev hev => ?_, fun j hj => ?_, fun j hj => ?_, fun m hm => ?_⟩ <;>
              simp_all [StepEvent.index]
          · obtain ⟨h1, h2, h3, h4⟩ := ih (i + 1)
              (mark_sent st ((i : Int)) r.email (env.clock i))
              (persist σ key (mark_sent st ((i : Int)) r.email (env.clock i)))
            refine ⟨fun ev hev => ?_, fun j hj => ?_, fun j hj => ?_, fun m hm => ?_⟩
            · rcases List.mem_cons.mp hev with rfl | hev
              · simp [StepEvent.index]
              · exact le_trans (Nat.le_succ i) (h1 ev hev)
            · rcases List.mem_cons.mp hj with rfl | hj
              · exact Nat.le.refl
              · exact le_trans (Nat.le_succ i) (h2 j hj)
            · rcases List.mem_cons.mp hj with rfl | hj
              · exact Nat.le.refl
              · exact le_trans (Nat.le_succ i) (h3 j hj)
            · rcases List.mem_cons.mp hm with rfl | hm
              · exact Nat.le.refl
              · exact le_trans (Nat.le_succ i) (h4 m hm)
          · refine ⟨fun ev hev => ?_, fun j hj => ?_, fun j hj => ?_, fun m hm => ?_⟩ <;>
              simp_all [StepEvent.index]
          · obtain ⟨h1, h2, h3, h4⟩ := ih (i + 1) st σ
            refine ⟨fun ev hev => ?_, fun j hj => ?_, fun j hj => ?_,
              fun m hm => le_trans (Nat.le_succ i) (h4 m hm)⟩
            · rcases List.mem_cons.mp hev with rfl | hev
              · simp [StepEvent.index]
              · exact le_trans (Nat.le_succ i) (h1 ev hev)
            · rcases List.mem_cons.mp hj with rfl | hj
              · exact Nat.le.refl
              · exact le_trans (Nat.le_succ i) (h2 j hj)
            · rcases List.mem_cons.mp hj with rfl | hj
              · exact Nat.le.refl
              · exact le_trans (Nat.le_succ i) (h3 j hj)

theorem processList_guard_skip (env : RunEnv) (blocked : BlockedData) (tm : Bool)
    (key : String) (s0 : Nat) :
    ∀ (rs : List Recipient) (j : Nat) (r : Recipient) (i : Nat) (st : SendingState) (σ : Storage),
      rs[j]? = some r →
      (is_blocked blocked r.email || was_sent st r.email) = true →
      (i + j) ∉ (processList env blocked tm key s0 rs i st σ).genCalls ∧
      (i + j) ∉ (processList env blocked tm key s0 rs i st σ).sendCalls ∧
      (∀ m ∈ (processList env blocked tm key s0 rs i st σ).markCalls, m.1 ≠ i + j) ∧
      (∀ ev ∈ (processList env blocked tm key s0 rs i st σ).events,
        ev.index = i + j → ev = StepEvent.skipped (i + j)) := by
  intro rs
  induction rs with
  | nil => intro j r i st σ hj _; simp at hj
  | cons r0 rs ih =>
    intro j r i st σ hj hguard
    match j with
    | 0 =>
      rw [List.getElem?_cons_zero, Option.some_inj] at hj
      subst hj
      obtain ⟨h1, h2, h3, h4⟩ := processList_index_ge env blocked tm key s0 rs (i + 1) st σ
      simp only [Nat.add_zero, processList]
      rw [if_pos hguard]
      refine ⟨?_, ?_, ?_, ?_⟩
      · intro hmem; have := h2 i hmem; omega
      · intro hmem; have := h3 i hmem; omega
      · intro m hm; have := h4 m hm; omega
      · intro ev hev hidx
        rcases List.mem_cons.mp hev with rfl | hev
        · rfl
        · have := h1 ev hev; omega
    | jj + 1 =>
      rw [List.getElem?_cons_succ] at hj
      have hidx : i + (jj + 1) = (i + 1) + jj := by omega
      rw [hidx]
      simp only [processList]
      split
      · -- skipped branch
        obtain ⟨g1, g2, g3, g4⟩ := ih jj r (i + 1) st σ hj hguard
        refine ⟨g1, g2, g3, ?_⟩
        intro ev hev hi
        rcases List.mem_cons.mp hev with rfl | hev
        · simp [StepEvent.index] at hi; omega
        · exact g4 ev hev hi
      · split
        · -- content failed
          obtain ⟨g1, g2, g3, g4⟩ := ih jj r (i + 1) st σ hj hguard
          refine ⟨?_, g2, g3, ?_⟩
          · intro hmem
            rcases List.mem_cons.mp hmem with heq | hmem
            · omega
            · exact g1 hmem
          · intro ev hev hi
            rcases List.mem_cons.mp hev with rfl | hev
            · simp [StepEvent.index] at hi; omega
            · exact g4 ev hev hi
        · split
          · split
            · -- test-mode preview limit break
              refine ⟨?_, ?_, ?_, ?_⟩ <;> simp [StepEvent.index] <;> omega
            · -- test-mode preview continue
              obtain ⟨g1, g2, g3, g4⟩ := ih jj r (i + 1) st σ hj hguard
              refine ⟨?_, g2, g3, ?_⟩
              · intro hmem
                rcases List.mem_cons.mp hmem with heq | hmem
                · omega
                · exact g1 hmem
              · intro ev hev hi
                rcases List.mem_cons.mp hev with rfl | hev
                · simp [StepEvent.index] at hi; omega
                · exact g4 ev hev hi
          · split
            · -- abort
              refine ⟨?_, ?_, ?_, ?_⟩ <;> simp [StepEvent.index] <;> omega
            · -- delivered
              have hguard2 : (is_blocked blocked r.email ||
                  was_sent (mark_sent st ((i : Int)) r0.email (env.clock i)) r.email) = true := by
                rcases (Bool.or_eq_true _ _).mp hguard with h | h
                · simp [h]
                · simp [was_sent_mark_sent_mono _ _ _ _ _ h]
              obtain ⟨g1, g2, g3, g4⟩ := ih jj r (i + 1)
                (mark_sent st ((i : Int)) r0.email (env.clock i))
                (persist σ key (mark_sent st ((i : Int)) r0.email (env.clock i))) hj hguard2
              refine ⟨?_, ?_, ?_, ?_⟩
              · intro hmem
                rcases List.mem_cons.mp hmem with heq | hmem
                · omega
                · exact g1 hmem
              · intro hmem
                rcases List.mem_cons.mp hmem with heq | hmem
                · omega
                · exact g2 hmem
              · intro m hm
                rcases List.mem_cons.mp hm with rfl | hm
                · simp; omega
                · exact g3 m hm
              · intro ev hev hi
                rcases List.mem_cons.mp hev with rfl | hev
                · simp [StepEvent.index] at hi; omega
                · exact g4 ev hev hi
            · -- quota
              refine ⟨?_, ?_, ?_, ?_⟩ <;> simp [StepEvent.index] <;> omega
            · -- send failed
              obtain ⟨g1, g2, g3, g4⟩ := ih jj r (i + 1) st σ hj hguard
              refine ⟨?_, ?_, g3, ?_⟩
              · intro hmem
                rcases List.mem_cons.mp hmem with heq | hmem
                · omega
                · exact g1 hmem
              · intro hmem
                rcases List.mem_cons.mp hmem with heq | hmem
                · omega
                · exact g2 hmem
              · intro ev hev hi
                rcases List.mem_cons.mp hev with rfl | hev
                · simp [StepEvent.index] at hi; omega
                · exact g4 ev hev hi

theorem processList_mono (env : RunEnv) (blocked : BlockedData) (tm : Bool)
    (key : String) (s0 : Nat) :
    ∀ (rs : List Recipient) (i : Nat) (st : SendingState) (σ : Storage),
      st.last_index_sent < (i : Int) →
      st.last_index_sent ≤ (processList env blocked tm key s0 rs i st σ).state.last_index_sent ∧
      st.sent_emails.Sublist (processList env blocked tm key s0 rs i st σ).state.sent_emails ∧
      List.Pairwise (fun a b => a.1 < b.1) (processList env blocked tm key s0 rs i st σ).markCalls ∧
      (∀ m ∈ (processList env blocked tm key s0 rs i st σ).markCalls, i ≤ m.1) := by
  intro rs
  induction rs with
  | nil =>
    intro i st σ _
    exact ⟨le_refl _, List.Sublist.refl _, List.Pairwise.nil, by simp [processList]⟩
  | cons r0 rs ih =>
    intro i st σ hcur
    have hcur1 : st.last_index_sent < ((i + 1 : Nat) : Int) := by push_cast; omega
    simp only [processList]
    split
    · exact ⟨(ih (i + 1) st σ hcur1).1, (ih (i + 1) st σ hcur1).2.1,
        (ih (i + 1) st σ hcur1).2.2.1,
        fun m hm => le_trans (Nat.le_succ i) ((ih (i + 1) st σ hcur1).2.2.2 m hm)⟩
    · split
      · exact ⟨(ih (i + 1) st σ hcur1).1, (ih (i + 1) st σ hcur1).2.1,
          (ih (i + 1) st σ hcur1).2.2.1,
          fun m hm => le_trans (Nat.le_succ i) ((ih (i + 1) st σ hcur1).2.2.2 m hm)⟩
      · split
        · split
          · exact ⟨le_refl _, List.Sublist.refl _, List.Pairwise.nil, by simp⟩
          · exact ⟨(ih (i + 1) st σ hcur1).1, (ih (i + 1) st σ hcur1).2.1,
              (ih (i + 1) st σ hcur1).2.2.1,
              fun m hm => le_trans (Nat.le_succ i) ((ih (i + 1) st σ hcur1).2.2.2 m hm)⟩
        · split
          · exact ⟨le_refl _, List.Sublist.refl _, List.Pairwise.nil, by simp⟩
          · -- delivered
            have hc2 : (mark_sent st ((i : Int)) r0.email (env.clock i)).last_index_sent <
                ((i + 1 : Nat) : Int) := by
              rw [mark_sent_last_index]; push_cast; omega
            obtain ⟨m1, m2, m3, m4⟩ := ih (i + 1)
              (mark_sent st ((i : Int)) r0.email (env.clock i))
              (persist σ key (mark_sent st ((i : Int)) r0.email (env.clock i))) hc2
            refine ⟨?_, ?_, ?_, ?_⟩
            · calc st.last_index_sent
                  ≤ (mark_sent st ((i : Int)) r0.email (env.clock i)).last_index_sent := by
                    rw [mark_sent_last_index]; omega
                _ ≤ _ := m1
            · exact List.Sublist.trans (mark_sent_sublist st ((i : Int)) r0.email (env.clock i)) m2
            · exact List.Pairwise.cons (fun b hb => lt_of_lt_of_le (Nat.lt_succ_self i) (m4 b hb)) m3
            · intro m hm
              rcases List.mem_cons.mp hm with rfl | hm
              · exact Nat.le.refl
              · exact le_trans (Nat.le_succ i) (m4 m hm)
          · exact ⟨le_refl _, List.Sublist.refl _, List.Pairwise.nil, by simp⟩
          · exact ⟨(ih (i + 1) st σ hcur1).1, (ih (i + 1) st σ hcur1).2.1,
              (ih (i + 1) st σ hcur1).2.2.1,
              fun m hm => le_trans (Nat.le_succ i) ((ih (i + 1) st σ hcur1).2.2.2 m hm)⟩

theorem processList_testMode (env : RunEnv) (blocked : BlockedData)
    (key : String) (s0 : Nat) :
    ∀ (rs : List Recipient) (i : Nat) (st : SendingState) (σ : Storage),
      (processList env blocked true key s0 rs i st σ).sendCalls = [] ∧
      (processList env blocked true key s0 rs i st σ).markCalls = [] ∧
      (processList env blocked true key s0 rs i st σ).state = st ∧
      (processList env blocked true key s0 rs i st σ).storage = σ := by
  intro rs
  induction rs with
  | nil => intro i st σ; exact ⟨rfl, rfl, rfl, rfl⟩
  | cons r0 rs ih =>
    intro i st σ
    simp only [processList]
    split
    · exact ih (i + 1) st σ
    · split
      · exact ih (i + 1) st σ
      · simp only [if_true]
        split
        · exact ⟨rfl, rfl, rfl, rfl⟩
        · exact ih (i + 1) st σ

theorem processList_quota (env : RunEnv) (blocked : BlockedData) (tm : Bool)
    (key : String) (s0 : Nat) :
    ∀ (rs : List Recipient) (i : Nat) (st : SendingState) (σ : Storage) (k : Nat),
      st.last_index_sent < (i : Int) →
      StepEvent.quotaStopped k ∈ (processList env blocked tm key s0 rs i st σ).events →
      (∀ ev ∈ (processList env blocked tm key s0 rs i st σ).events, ev.index ≤ k) ∧
      (∀ ev ∈ (processList env blocked tm key s0 rs i st σ).events,
        ev.index = k → ev = StepEvent.quotaStopped k) ∧
      (∀ m ∈ (processList env blocked tm key s0 rs i st σ).markCalls, m.1 < k) ∧
      (processList env blocked tm key s0 rs i st σ).state.last_index_sent < (k : Int) ∧
      (∀ jj r2, rs[jj]? = some r2 → i + jj = k →
        was_sent (processList env blocked tm key s0 rs i st σ).state r2.email = false) := by
  intro rs
  induction rs with
  | nil => intro i st σ k _ hmem; simp [processList] at hmem
  | cons r0 rs ih =>
    intro i st σ k hcur hmem
    have hcur1 : st.last_index_sent < ((i + 1 : Nat) : Int) := by push_cast; omega
    simp only [processList] at hmem ⊢
    split at hmem
    · -- skipped branch
      rename_i hg
      rcases List.mem_cons.mp hmem with habs | hmem2
      · exact absurd habs (by simp)
      · have hk : i + 1 ≤ k :=
          (processList_index_ge env blocked tm key s0 rs (i + 1) st σ).1 _ hmem2
        obtain ⟨q1, q2, q3, q4, q5⟩ := ih (i + 1) st σ k hcur1 hmem2
        rw [if_pos hg]
        refine ⟨?_, ?_, q3, q4, ?_⟩
        · intro ev hev
          rcases List.mem_cons.mp hev with rfl | hev
          · simp [StepEvent.index]; omega
          · exact q1 ev hev
        · intro ev hev hevi
          rcases List.mem_cons.mp hev with rfl | hev
          · simp [StepEvent.index] at hevi; omega
          · exact q2 ev hev hevi
        · intro jj r2 hjj hadd
          match jj with
          | 0 =>
            simp at hjj
            omega
          | jjj + 1 =>
            rw [List.getElem?_cons_succ] at hjj
            exact q5 jjj r2 hjj (by omega)
    · rename_i hg
      rw [if_neg hg]
      split at hmem
      all_goals rename_i hgen
      · -- content failed
        rcases List.mem_cons.mp hmem with habs | hmem2
        · exact absurd habs (by simp)
        · have hk : i + 1 ≤ k :=
            (processList_index_ge env blocked tm key s0 rs (i + 1) st σ).1 _ hmem2
          obtain ⟨q1, q2, q3, q4, q5⟩ := ih (i + 1) st σ k hcur1 hmem2
          refine ⟨?_, ?_, q3, q4, ?_⟩
          · intro ev hev
            rcases List.mem_cons.mp hev with rfl | hev
            · simp [StepEvent.index]; omega
            · exact q1 ev hev
          · intro ev hev hevi
            rcases List.mem_cons.mp hev with rfl | hev
            · simp [StepEvent.index] at hevi; omega
            · exact q2 ev hev hevi
          · intro jj r2 hjj hadd
            match jj with
            | 0 => simp at hjj; omega
            | jjj + 1 =>
              rw [List.getElem?_cons_succ] at hjj
              exact q5 jjj r2 hjj (by omega)
      · -- gen some
        split at hmem
        · -- test mode
          rename_i htm
          rw [if_pos htm]
          split at hmem
          · rename_i hlim
            rw [if_pos hlim]
            exact absurd hmem (by simp)
          · rename_i hlim
            rw [if_neg hlim]
            rcases List.mem_cons.mp hmem with habs | hmem2
            · exact absurd habs (by simp)
            · have hk : i + 1 ≤ k :=
                (processList_index_ge env blocked tm key s0 rs (i + 1) st σ).1 _ hmem2
              obtain ⟨q1, q2, q3, q4, q5⟩ := ih (i + 1) st σ k hcur1 hmem2
              refine ⟨?_, ?_, q3, q4, ?_⟩
              · intro ev hev
                rcases List.mem_cons.mp hev with rfl | hev
                · simp [StepEvent.index]; omega
                · exact q1 ev hev
              · intro ev hev hevi
                rcases List.mem_cons.mp hev with rfl | hev
                · simp [StepEvent.index] at hevi; omega
                · exact q2 ev hev hevi
              · intro jj r2 hjj hadd
                match jj with
                | 0 => simp at hjj; omega
                | jjj + 1 =>
                  rw [List.getElem?_cons_succ] at hjj
                  exact q5 jjj r2 hjj (by omega)
        · rename_i htm
          rw [if_neg htm]
          split at hmem
          all_goals rename_i hsend
          · exact absurd hmem (by simp)
          · -- delivered
            rcases List.mem_cons.mp hmem with habs | hmem2
            · exact absurd habs (by simp)
            · have hc2 : (mark_sent st (i : Int) r0.email (env.clock i)).last_index_sent <
                  ((i + 1 : Nat) : Int) := by
                rw [mark_sent_last_index]; push_cast; omega
              have hk : i + 1 ≤ k :=
                (processList_index_ge env blocked tm key s0 rs (i + 1)
                  (mark_sent st (i : Int) r0.email (env.clock i))
                  (persist σ key (mark_sent st (i : Int) r0.email (env.clock i)))).1 _ hmem2
              obtain ⟨q1, q2, q3, q4, q5⟩ := ih (i + 1)
                (mark_sent st (i : Int) r0.email (env.clock i))
                (persist σ key (mark_sent st (i : Int) r0.email (env.clock i))) k hc2 hmem2
              refine ⟨?_, ?_, ?_, q4, ?_⟩
              · intro ev hev
                rcases List.mem_cons.mp hev with rfl | hev
                · simp [StepEvent.index]; omega
                · exact q1 ev hev
              · intro ev hev hevi
                rcases List.mem_cons.mp hev with rfl | hev
                · simp [StepEvent.index] at hevi; omega
                · exact q2 ev hev hevi
              · intro m hm
                rcases List.mem_cons.mp hm with rfl | hm
                · simp; omega
                · exact q3 m hm
              · intro jj r2 hjj hadd
                match jj with
                | 0 => simp at hjj; omega
                | jjj + 1 =>
                  rw [List.getElem?_cons_succ] at hjj
                  exact q5 jjj r2 hjj (by omega)
          · -- quota stop here
            have hik : k = i := by
              have h := List.mem_singleton.mp hmem
              injection h with hki
            subst hik
            have hws : was_sent st r0.email = false := by
              revert hg
              cases hwb : was_sent st r0.email <;> cases hbb : is_blocked blocked r0.email <;> simp
            refine ⟨?_, ?_, ?_, hcur, ?_⟩
            · intro ev hev
              rcases List.mem_cons.mp hev with rfl | habs
              · exact Nat.le.refl
              · simp at habs
            · intro ev hev _
              rcases List.mem_cons.mp hev with rfl | habs
              · rfl
              · simp at habs
            · intro m hm; simp at hm
            · intro jj r2 hjj hadd
              match jj with
              | 0 =>
                rw [List.getElem?_cons_zero, Option.some_inj] at hjj
                subst hjj
                exact hws
              | jjj + 1 => omega
          · -- send failed
            rcases List.mem_cons.mp hmem with habs | hmem2
            · exact absurd habs (by simp)
            · have hk : i + 1 ≤ k :=
                (processList_index_ge env blocked tm key s0 rs (i + 1) st σ).1 _ hmem2
              obtain ⟨q1, q2, q3, q4, q5⟩ := ih (i + 1) st σ k hcur1 hmem2
              refine ⟨?_, ?_, q3, q4, ?_⟩
              · intro ev hev
                rcases List.mem_cons.mp hev with rfl | hev
                · simp [StepEvent.index]; omega
                · exact q1 ev hev
              · intro ev hev hevi
                rcases List.mem_cons.mp hev with rfl | hev
                · simp [StepEvent.index] at hevi; omega
                · exact q2 ev hev hevi
              · intro jj r2 hjj hadd
                match jj with
                | 0 => simp at hjj; omega
                | jjj + 1 =>
                  rw [List.getElem?_cons_succ] at hjj
                  exact q5 jjj r2 hjj (by omega)
theorem processList_abort (env : RunEnv) (blocked : BlockedData) (tm : Bool)
    (key : String) (s0 : Nat) :
    ∀ (rs : List Recipient) (i : Nat) (st : SendingState) (σ : Storage) (k : Nat),
      StepEvent.aborted k ∈ (processList env blocked tm key s0 rs i st σ).events →
      (∀ ev ∈ (processList env blocked tm key s0 rs i st σ).events, ev.index ≤ k) ∧
      (∀ ev ∈ (processList env blocked tm key s0 rs i st σ).events,
        ev.index = k → ev = StepEvent.aborted k) ∧
      (∀ m ∈ (processList env blocked tm key s0 rs i st σ).markCalls, m.1 < k) := by
  intro rs
  induction rs with
  | nil => intro i st σ k hmem; simp [processList] at hmem
  | cons r0 rs ih =>
    intro i st σ k hmem
    simp only [processList] at hmem ⊢
    split at hmem
    · rename_i hg
      rcases List.mem_cons.mp hmem with habs | hmem2
      · exact absurd habs (by simp)
      · have hk : i + 1 ≤ k :=
          (processList_index_ge env blocked tm key s0 rs (i + 1) st σ).1 _ hmem2
        obtain ⟨q1, q2, q3⟩ := ih (i + 1) st σ k hmem2
        rw [if_pos hg]
        refine ⟨?_, ?_, q3⟩
        · intro ev hev
          rcases List.mem_cons.mp hev with rfl | hev
          · simp [StepEvent.index]; omega
          · exact q1 ev hev
        · intro ev hev hevi
          rcases List.mem_cons.mp hev with rfl | hev
          · simp [StepEvent.index] at hevi; omega
          · exact q2 ev hev hevi
    · rename_i hg
      rw [if_neg hg]
      split at hmem
      all_goals rename_i hgen
      · rcases List.mem_cons.mp hmem with habs | hmem2
        · exact absurd habs (by simp)
        · have hk : i + 1 ≤ k :=
            (processList_index_ge env blocked tm key s0 rs (i + 1) st σ).1 _ hmem2
          obtain ⟨q1, q2, q3⟩ := ih (i + 1) st σ k hmem2
          refine ⟨?_, ?_, q3⟩
          · intro ev hev
            rcases List.mem_cons.mp hev with rfl | hev
            · simp [StepEvent.index]; omega
            · exact q1 ev hev
          · intro ev hev hevi
            rcases List.mem_cons.mp hev with rfl | hev
            · simp [StepEvent.index] at hevi; omega
            · exact q2 ev hev hevi
      · split at hmem
        · rename_i htm
          rw [if_pos htm]
          split at hmem
          · rename_i hlim
            rw [if_pos hlim]
            exact absurd hmem (by simp)
          · rename_i hlim
            rw [if_neg hlim]
            rcases List.mem_cons.mp hmem with habs | hmem2
            · exact absurd habs (by simp)
            · have hk : i + 1 ≤ k :=
                (processList_index_ge env blocked tm key s0 rs (i + 1) st σ).1 _ hmem2
              obtain ⟨q1, q2, q3⟩ := ih (i + 1) st σ k hmem2
              refine ⟨?_, ?_, q3⟩
              · intro ev hev
                rcases List.mem_cons.mp hev with rfl | hev
                · simp [StepEvent.index]; omega
                · exact q1 ev hev
              · intro ev hev hevi
                rcases List.mem_cons.mp hev with rfl | hev
                · simp [StepEvent.index] at hevi; omega
                · exact q2 ev hev hevi
        · rename_i htm
          rw [if_neg htm]
          split at hmem
          all_goals rename_i hsend
          · -- abort here
            have hik : k = i := by
              have h := List.mem_singleton.mp hmem
              injection h with hki
            subst hik
            refine ⟨?_, ?_, ?_⟩
            · intro ev hev
              rcases List.mem_cons.mp hev with rfl | habs
              · exact Nat.le.refl
              · simp at habs
            · intro ev hev _
              rcases List.mem_cons.mp hev with rfl | habs
              · rfl
              · simp at habs
            · intro m hm; simp at hm
          · -- delivered
            rcases List.mem_cons.mp hmem with habs | hmem2
            · exact absurd habs (by simp)
            · have hk : i + 1 ≤ k :=
                (processList_index_ge env blocked tm key s0 rs (i + 1)
                  (mark_sent st (i : Int) r0.email (env.clock i))
                  (persist σ key (mark_sent st (i : Int) r0.email (env.clock i)))).1 _ hmem2
              obtain ⟨q1, q2, q3⟩ := ih (i + 1)
                (mark_sent st (i : Int) r0.email (env.clock i))
                (persist σ key (mark_sent st (i : Int) r0.email (env.clock i))) k hmem2
              refine ⟨?_, ?_, ?_⟩
              · intro ev hev
                rcases List.mem_cons.mp hev with rfl | hev
                · simp [StepEvent.index]; omega
                · exact q1 ev hev
              · intro ev hev hevi
                rcases List.mem_cons.mp hev with rfl | hev
                · simp [StepEvent.index] at hevi; omega
                · exact q2 ev hev hevi
              · intro m hm
                rcases List.mem_cons.mp hm with rfl | hm
                · simp; omega
                · exact q3 m hm
          · exact absurd hmem (by simp)
          · rcases List.mem_cons.mp hmem with habs | hmem2
            · exact absurd habs (by simp)
            · have hk : i + 1 ≤ k :=
                (processList_index_ge env blocked tm key s0 rs (i + 1) st σ).1 _ hmem2
              obtain ⟨q1, q2, q3⟩ := ih (i + 1) st σ k hmem2
              refine ⟨?_, ?_, q3⟩
              · intro ev hev
                rcases List.mem_cons.mp hev with rfl | hev
                · simp [StepEvent.index]; omega
                · exact q1 ev hev
              · intro ev hev hevi
                rcases List.mem_cons.mp hev with rfl | hev
                · simp [StepEvent.index] at hevi; omega
                · exact q2 ev hev hevi

/-! ## Blocklist lemmas -/

theorem add_domain1_no_empty (d : BlockedData) (x : String)
    (h : "" ∉ d.blocked_domains) : "" ∉ (add_domain1 d x).blocked_domains := by
  simp only [add_domain1]
  split
  · rename_i hc
    simp only [List.mem_append, List.mem_singleton]
    rintro (hmem | heq)
    · exact h hmem
    · exact hc.1 heq.symm
  · exact h

theorem add_domains_no_empty (d : BlockedData) (xs : List String)
    (h : "" ∉ d.blocked_domains) : "" ∉ (add_domains d xs).blocked_domains := by
  induction xs generalizing d with
  | nil => exact h
  | cons x xs ih => exact ih (add_domain1 d x) (add_domain1_no_empty d x h)

theorem add_email1_domains (d : BlockedData) (x : String) :
    (add_email1 d x).blocked_domains = d.blocked_domains := by
  simp only [add_email1]
  split <;> rfl

theorem add_emails_domains (d : BlockedData) (xs : List String) :
    (add_emails d xs).blocked_domains = d.blocked_domains := by
  induction xs generalizing d with
  | nil => rfl
  | cons x xs ih =>
    show (add_emails (add_email1 d x) xs).blocked_domains = _
    rw [ih (add_email1 d x), add_email1_domains]

theorem reachable_no_empty_domain (d : BlockedData) (h : ReachableBlocked d) :
    "" ∉ d.blocked_domains := by
  induction h with
  | init => simp [emptyBlocked]
  | domains d xs _ ih => exact add_domains_no_empty d xs ih
  | emails d xs _ ih => rw [add_emails_domains]; exact ih
/-! ## Claim theorems -/

/-- **C9.** For every blocklist state reachable via `add_domains` and
`add_emails`, `is_blocked e` is true exactly when the trimmed, lower-cased
email is in the blocked-email set or the substring after its last `@` is in
the blocked-domain set; an address without `@` has the empty domain and can
only be blocked through the blocked-email set, because the mutating
operations never insert empty entries. -/
theorem is_blocked_spec (d : BlockedData) (hd : ReachableBlocked d) (e : String) :
    (is_blocked d e = true ↔
      (lowerStr (stripStr e) ∈ d.blocked_emails ∨
        domainOf (lowerStr (stripStr e)) ∈ d.blocked_domains)) ∧
    ((lowerStr (stripStr e)).data.contains '@' = false →
      (is_blocked d e = true ↔ lowerStr (stripStr e) ∈ d.blocked_emails)) := by
  constructor
  · simp only [is_blocked]
    split
    · rename_i hm; simp [hm]
    · rename_i hm; simp [hm]
  · intro hat
    have hdom : domainOf (lowerStr (stripStr e)) = "" := by
      have hat2 : '@' ∉ (lowerStr (stripStr e)).data := by simpa using hat
      simp [domainOf, hat2]
    have hne : domainOf (lowerStr (stripStr e)) ∉ d.blocked_domains := by
      rw [hdom]; exact reachable_no_empty_domain d hd
    simp only [is_blocked]
    split
    · rename_i hm; simp [hm]
    · rename_i hm; simp [hm, hne]

/-- Witness for `is_blocked_spec` at a concrete reachable blocklist. -/
theorem is_blocked_spec_witness :
    (is_blocked (add_domains emptyBlocked ["spam.example"]) " X@Spam.Example " = true ↔
      (lowerStr (stripStr " X@Spam.Example ") ∈
          (add_domains emptyBlocked ["spam.example"]).blocked_emails ∨
        domainOf (lowerStr (stripStr " X@Spam.Example ")) ∈
          (add_domains emptyBlocked ["spam.example"]).blocked_domains)) ∧
    is_blocked (add_domains emptyBlocked ["spam.example"]) "nodomain" = false := by
  have h1 := is_blocked_spec (add_domains emptyBlocked ["spam.example"])
    (ReachableBlocked.domains emptyBlocked ["spam.example"] ReachableBlocked.init)
    " X@Spam.Example "
  have h2 := is_blocked_spec (add_domains emptyBlocked ["spam.example"])
    (ReachableBlocked.domains emptyBlocked ["spam.example"] ReachableBlocked.init)
    "nodomain"
  refine ⟨h1.1, ?_⟩
  have h3 := (h2.2 (by decide))
  by_cases hb : is_blocked (add_domains emptyBlocked ["spam.example"]) "nodomain" = true
  · exact absurd (h3.mp hb) (by decide)
  · simpa using hb

/-- **C3.** After `mark_sent(position, email)`: the cursor equals `position`
unconditionally, `was_sent email` is true, the lower-cased email was appended
only if not already present case-insensitively, the run timestamp is set,
the state is persisted under the identity's file name, reloading the ledger
for the same identity yields exactly the updated state (so `was_sent` is
also true after a reload), and `was_sent email` stays true across any later
`mark_sent`. -/
theorem mark_sent_contract (st : SendingState) (p : Int) (e : String) (now : Nat)
    (σ : Storage) (idd : String) :
    (mark_sent st p e now).last_index_sent = p ∧
    was_sent (mark_sent st p e now) e = true ∧
    (was_sent st e = true → (mark_sent st p e now).sent_emails = st.sent_emails) ∧
    (was_sent st e = false →
      (mark_sent st p e now).sent_emails = st.sent_emails ++ [lowerStr e]) ∧
    (mark_sent st p e now).last_run_date = some now ∧
    persist σ (fileKeyOf idd) (mark_sent st p e now) (fileKeyOf idd) =
      some (mark_sent st p e now) ∧
    loadState (persist σ (fileKeyOf idd) (mark_sent st p e now)) (fileKeyOf idd) =
      mark_sent st p e now ∧
    was_sent (loadState (persist σ (fileKeyOf idd) (mark_sent st p e now)) (fileKeyOf idd)) e
      = true ∧
    (∀ p2 e2 n2, was_sent (mark_sent (mark_sent st p e now) p2 e2 n2) e = true) := by
  refine ⟨mark_sent_last_index st p e now, was_sent_mark_sent_self st p e now,
    (mark_sent_sent_emails st p e now).1, (mark_sent_sent_emails st p e now).2,
    mark_sent_run_date st p e now, ?_, ?_, ?_, ?_⟩
  · simp [persist]
  · simp [persist, loadState]
  · simp [persist, loadState, was_sent_mark_sent_self]
  · intro p2 e2 n2
    exact was_sent_mark_sent_mono (mark_sent st p e now) p2 e2 n2 e
      (was_sent_mark_sent_self st p e now)

/-- Witness for `mark_sent_contract` at concrete inputs. -/
theorem mark_sent_contract_witness :
    (mark_sent zeroState 0 "A@B.c" 5).last_index_sent = 0 ∧
    was_sent (mark_sent zeroState 0 "A@B.c" 5) "A@B.c" = true ∧
    was_sent (loadState (persist emptyStorage (fileKeyOf "me@x.y")
      (mark_sent zeroState 0 "A@B.c" 5)) (fileKeyOf "me@x.y")) "A@B.c" = true := by
  have h := mark_sent_contract zeroState 0 "A@B.c" 5 emptyStorage "me@x.y"
  exact ⟨h.1, h.2.1, h.2.2.2.2.2.2.2.1⟩

/-- **C6 counterexample.** Two distinct sender identities are mapped to the
same ledger file name, so the key derivation is not injective. -/
theorem fileKeyOf_collision : fileKeyOf "a.b" = fileKeyOf "a_b" ∧ "a.b" ≠ "a_b" := by
  exact ⟨by decide, by decide⟩

/-- **C6 amended.** The identity-to-file-name mapping is deterministic — a
run for the same identity always finds exactly the state last saved under
that identity's key — but it is not injective: distinct identities (for
example ones differing only by `.` versus `_`) map to the same file name,
so their ledgers can collide. -/
theorem fileKeyOf_deterministic_not_injective :
    (∀ idd st σ, loadState (persist σ (fileKeyOf idd) st) (fileKeyOf idd) = st) ∧
    ¬ (∀ a b : String, fileKeyOf a = fileKeyOf b → a = b) := by
  constructor
  · intro idd st σ; simp [loadState, persist]
  · intro h
    have hcol := h "a.b" "a_b" (by decide)
    exact absurd hcol (by decide)

/-- Witness for `fileKeyOf_deterministic_not_injective`. -/
theorem fileKeyOf_deterministic_witness :
    loadState (persist emptyStorage (fileKeyOf "me@x.y") zeroState) (fileKeyOf "me@x.y")
      = zeroState :=
  fileKeyOf_deterministic_not_injective.1 "me@x.y" zeroState emptyStorage

/-- **C5.** The in-place rewrite `save` performs is not atomic with respect
to a crash: there is a crash point (here: after a single character) at which
the durably stored ledger content is neither the prior serialized state nor
the updated serialized state — exactly the partial write the specification
rules out. -/
theorem save_in_place_not_atomic :
    fileAfterCrash (serializeState (mark_sent ⟨0, ["a@b"], some 1⟩ 1 "c@d" 2)) 1 ≠
      serializeState ⟨0, ["a@b"], some 1⟩ ∧
    fileAfterCrash (serializeState (mark_sent ⟨0, ["a@b"], some 1⟩ 1 "c@d" 2)) 1 ≠
      serializeState (mark_sent ⟨0, ["a@b"], some 1⟩ 1 "c@d" 2) :=
  ⟨by decide, by decide⟩

/-- **C8.** In test (dry-run) mode the engine never invokes the delivery
transport and never calls `mark_sent`; the in-memory ledger state and the
stored ledger file after the run are exactly what they were before it. -/
theorem dry_run_no_mutation (env : RunEnv) (blocked : BlockedData)
    (recipients : List Recipient) (key : String) (st : SendingState) (σ : Storage) :
    (run_sending_process env blocked recipients true key st σ).sendCalls = [] ∧
    (run_sending_process env blocked recipients true key st σ).markCalls = [] ∧
    (run_sending_process env blocked recipients true key st σ).state = st ∧
    (run_sending_process env blocked recipients true key st σ).storage = σ :=
  processList_testMode env blocked key ((st.last_index_sent + 1).toNat)
    (recipients.drop ((st.last_index_sent + 1).toNat))
    ((st.last_index_sent + 1).toNat) st σ

/-- Witness for `dry_run_no_mutation` on a concrete dry run. -/
theorem dry_run_no_mutation_witness :
    (run_sending_process envDeliver emptyBlocked [oneRecipient] true "k" zeroState
      emptyStorage).markCalls = [] ∧
    (run_sending_process envDeliver emptyBlocked [oneRecipient] true "k" zeroState
      emptyStorage).state = zeroState :=
  ⟨(dry_run_no_mutation envDeliver emptyBlocked [oneRecipient] "k" zeroState emptyStorage).2.1,
   (dry_run_no_mutation envDeliver emptyBlocked [oneRecipient] "k" zeroState emptyStorage).2.2.1⟩

/-- **C10.** Under the hypothesis that the underlying API call either
succeeds or raises `HttpError`, `send_email` has exactly three outcomes:
`True` iff no exception was raised, `"QUOTA_ERROR"` iff the `HttpError`
status is 403 or 429, and `False` for every other `HttpError`.  Any other
exception is not caught; when it escapes during a run, the run stops at that
position and no `mark_sent` call is made at or after it. -/
theorem send_email_outcomes :
    (∀ r : ApiResult,
      (send_email r = Except.ok SendResult.delivered ↔ r = ApiResult.ok) ∧
      (send_email r = Except.ok SendResult.quotaError ↔
        ∃ s, r = ApiResult.httpError s ∧ (s = 403 ∨ s = 429)) ∧
      (send_email r = Except.ok SendResult.failed ↔
        ∃ s, r = ApiResult.httpError s ∧ ¬(s = 403 ∨ s = 429)) ∧
      ((∃ ex, send_email r = Except.error ex) ↔ r = ApiResult.otherError)) ∧
    (∀ env blocked recipients key st σ k,
      StepEvent.aborted k ∈
        (run_sending_process env blocked recipients false key st σ).events →
      (∀ ev ∈ (run_sending_process env blocked recipients false key st σ).events,
        ev.index ≤ k) ∧
      (∀ m ∈ (run_sending_process env blocked recipients false key st σ).markCalls,
        m.1 < k)) := by
  constructor
  · intro r
    match r with
    | ApiResult.ok => refine ⟨by simp [send_email], by simp [send_email],
        by simp [send_email], by simp [send_email]⟩
    | ApiResult.httpError s =>
      by_cases hs : s = 403 ∨ s = 429
      · refine ⟨by simp [send_email, hs], by simp [send_email, hs], ?_, by simp [send_email, hs]⟩
        simp only [send_email, if_pos hs]
        constructor
        · intro habs; exact absurd habs (by simp)
        · rintro ⟨s2, hs2, hns⟩
          injection hs2 with h
          exact absurd (h ▸ hs) hns
      · refine ⟨by simp [send_email, hs], ?_, ?_, by simp [send_email, hs]⟩
        · simp only [send_email, if_neg hs]
          constructor
          · intro habs; exact absurd habs (by simp)
          · rintro ⟨s2, hs2, h43⟩
            injection hs2 with h
            exact absurd (h ▸ h43) hs
        · simp only [send_email, if_neg hs]
          exact ⟨fun _ => ⟨s, rfl, hs⟩, fun _ => trivial⟩
    | ApiResult.otherError =>
      refine ⟨by simp [send_email], by simp [send_email], by simp [send_email], ?_⟩
      exact ⟨fun _ => rfl, fun _ => ⟨(), rfl⟩⟩
  · intro env blocked recipients key st σ k hmem
    have h := processList_abort env blocked false key ((st.last_index_sent + 1).toNat)
      (recipients.drop ((st.last_index_sent + 1).toNat))
      ((st.last_index_sent + 1).toNat) st σ k hmem
    exact ⟨h.1, h.2.2⟩

/-- Witness for `send_email_outcomes`: the quota status mapping and a run
aborted by a non-`HttpError` exception at position 0. -/
theorem send_email_outcomes_witness :
    send_email (ApiResult.httpError 429) = Except.ok SendResult.quotaError ∧
    (∀ m ∈ (run_sending_process envAbort emptyBlocked [oneRecipient] false "k" zeroState
      emptyStorage).markCalls, m.1 < 0) := by
  constructor
  · exact ((send_email_outcomes.1 (ApiResult.httpError 429)).2.1).mpr ⟨429, rfl, Or.inr rfl⟩
  · exact (send_email_outcomes.2 envAbort emptyBlocked [oneRecipient] "k" zeroState
      emptyStorage 0 (by decide)).2

/-- **C7.** The ledger only moves forward: in any run the `mark_sent`
positions are strictly increasing and all lie strictly beyond the starting
cursor, the cursor never decreases and the sent set only grows — and the
same holds again for a subsequent run started from the resulting ledger, so
the invariant is maintained across successive runs for the same identity. -/
theorem ledger_monotone (env1 env2 : RunEnv) (blocked : BlockedData)
    (recipients1 recipients2 : List Recipient) (tm1 tm2 : Bool) (key : String)
    (st : SendingState) (σ : Storage) :
    let res1 := run_sending_process env1 blocked recipients1 tm1 key st σ
    let res2 := run_sending_process env2 blocked recipients2 tm2 key res1.state res1.storage
    List.Pairwise (fun a b => a.1 < b.1) res1.markCalls ∧
    (∀ m ∈ res1.markCalls, st.last_index_sent < (m.1 : Int)) ∧
    st.last_index_sent ≤ res1.state.last_index_sent ∧
    st.sent_emails.Sublist res1.state.sent_emails ∧
    List.Pairwise (fun a b => a.1 < b.1) res2.markCalls ∧
    (∀ m ∈ res2.markCalls, res1.state.last_index_sent < (m.1 : Int)) ∧
    res1.state.last_index_sent ≤ res2.state.last_index_sent ∧
    res1.state.sent_emails.Sublist res2.state.sent_emails := by
  intro res1 res2
  have hc1 : st.last_index_sent < (((st.last_index_sent + 1).toNat : Nat) : Int) := by omega
  obtain ⟨m1, m2, m3, m4⟩ := processList_mono env1 blocked tm1 key
    ((st.last_index_sent + 1).toNat)
    (recipients1.drop ((st.last_index_sent + 1).toNat))
    ((st.last_index_sent + 1).toNat) st σ hc1
  have hc2 : res1.state.last_index_sent <
      (((res1.state.last_index_sent + 1).toNat : Nat) : Int) := by omega
  obtain ⟨n1, n2, n3, n4⟩ := processList_mono env2 blocked tm2 key
    ((res1.state.last_index_sent + 1).toNat)
    (recipients2.drop ((res1.state.last_index_sent + 1).toNat))
    ((res1.state.last_index_sent + 1).toNat) res1.state res1.storage hc2
  refine ⟨m3, ?_, m1, m2, n3, ?_, n1, n2⟩
  · intro m hm
    have := m4 m hm
    omega
  · intro m hm
    have := n4 m hm
    omega

/-- Witness for `ledger_monotone` on two concrete successive runs. -/
theorem ledger_monotone_witness :
    (run_sending_process envDeliver emptyBlocked [oneRecipient] false "k" zeroState
      emptyStorage).state.last_index_sent ≤
      (run_sending_process envDeliver emptyBlocked [oneRecipient] false "k"
        (run_sending_process envDeliver emptyBlocked [oneRecipient] false "k" zeroState
          emptyStorage).state
        (run_sending_process envDeliver emptyBlocked [oneRecipient] false "k" zeroState
          emptyStorage).storage).state.last_index_sent ∧
    zeroState.sent_emails.Sublist
      (run_sending_process envDeliver emptyBlocked [oneRecipient] false "k" zeroState
        emptyStorage).state.sent_emails := by
  have h := ledger_monotone envDeliver envDeliver emptyBlocked [oneRecipient] [oneRecipient]
    false false "k" zeroState emptyStorage
  exact ⟨h.2.2.2.2.2.2.1, h.2.2.2.1⟩

/-- **C1.** After a first engine run, a second run over the unchanged
recipient list and the ledger the first run left behind performs no delivery
for any recipient whose (lower-cased) email is already in the sent set: the
content generator and transport are not invoked for its position, no
`mark_sent` call is made for it, the only event the second run can record at
its position is a skip, and positions at or before the cursor are not
visited at all. -/
theorem second_run_idempotent (env1 env2 : RunEnv) (blocked : BlockedData)
    (recipients : List Recipient) (key : String) (st0 : SendingState) (σ0 : Storage)
    (i : Nat) (r : Recipient)
    (hget : recipients[i]? = some r)
    (hsent : was_sent (run_sending_process env1 blocked recipients false key st0 σ0).state
      r.email = true) :
    let res1 := run_sending_process env1 blocked recipients false key st0 σ0
    let res2 := run_sending_process env2 blocked recipients false key res1.state res1.storage
    i ∉ res2.genCalls ∧ i ∉ res2.sendCalls ∧ (∀ m ∈ res2.markCalls, m.1 ≠ i) ∧
    (∀ ev ∈ res2.events, ev.index = i → ev = StepEvent.skipped i) ∧
    (∀ j : Nat, (j : Int) ≤ res1.state.last_index_sent →
      ∀ ev ∈ res2.events, ev.index ≠ j) := by
  intro res1 res2
  have hlast : ∀ j : Nat, (j : Int) ≤ res1.state.last_index_sent →
      ∀ ev ∈ res2.events, ev.index ≠ j := by
    intro j hj ev hev
    have h1 := (processList_index_ge env2 blocked false key
      ((res1.state.last_index_sent + 1).toNat)
      (recipients.drop ((res1.state.last_index_sent + 1).toNat))
      ((res1.state.last_index_sent + 1).toNat) res1.state res1.storage).1 ev hev
    omega
  by_cases hlt : i < (res1.state.last_index_sent + 1).toNat
  · obtain ⟨h1, h2, h3, h4⟩ := processList_index_ge env2 blocked false key
      ((res1.state.last_index_sent + 1).toNat)
      (recipients.drop ((res1.state.last_index_sent + 1).toNat))
      ((res1.state.last_index_sent + 1).toNat) res1.state res1.storage
    refine ⟨?_, ?_, ?_, ?_, hlast⟩
    · intro hmem; have := h2 i hmem; omega
    · intro hmem; have := h3 i hmem; omega
    · intro m hm; have := h4 m hm; omega
    · intro ev hev hevi; have := h1 ev hev; omega
  · have hle : (res1.state.last_index_sent + 1).toNat ≤ i := le_of_not_lt hlt
    have hdrop : (recipients.drop ((res1.state.last_index_sent + 1).toNat))[
        i - (res1.state.last_index_sent + 1).toNat]? = some r := by
      rw [List.getElem?_drop, Nat.add_sub_cancel' hle]
      exact hget
    have hguard : (is_blocked blocked r.email || was_sent res1.state r.email) = true := by
      simp [hsent]
    obtain ⟨g1, g2, g3, g4⟩ := processList_guard_skip env2 blocked false key
      ((res1.state.last_index_sent + 1).toNat)
      (recipients.drop ((res1.state.last_index_sent + 1).toNat))
      (i - (res1.state.last_index_sent + 1).toNat) r
      ((res1.state.last_index_sent + 1).toNat) res1.state res1.storage hdrop hguard
    rw [Nat.add_sub_cancel' hle] at g1 g2 g3 g4
    exact ⟨g1, g2, g3, g4, hlast⟩

/-- Witness for `second_run_idempotent`: one recipient delivered on the first
run, then skipped by the `was_sent` check on the second run. -/
theorem second_run_idempotent_witness :
    0 ∉ (run_sending_process envDeliver emptyBlocked [oneRecipient] false "k"
        (run_sending_process envDeliver emptyBlocked [oneRecipient] false "k" zeroState
          emptyStorage).state
        (run_sending_process envDeliver emptyBlocked [oneRecipient] false "k" zeroState
          emptyStorage).storage).sendCalls := by
  have h := second_run_idempotent envDeliver envDeliver emptyBlocked [oneRecipient] "k"
    zeroState emptyStorage 0 oneRecipient (by decide) (by decide)
  exact h.2.1

/-- **C2.** When the transport reports the quota-exceeded outcome at
position `k`, the run halts there at once: no position beyond `k` is
processed, the only event at `k` is the quota stop (in particular `k` is not
delivered), every `mark_sent` call of the run lies strictly below `k`, the
final cursor stays below `k`, `k`'s email is not in the sent set when the
run stops, and the start index `cursor + 1` of a subsequent run is at most
`k`, so position `k` is re-evaluated. -/
theorem quota_stop_halts (env : RunEnv) (blocked : BlockedData)
    (recipients : List Recipient) (key : String) (st : SendingState) (σ : Storage)
    (k : Nat)
    (hcur : -1 ≤ st.last_index_sent)
    (hq : StepEvent.quotaStopped k ∈
      (run_sending_process env blocked recipients false key st σ).events) :
    let res := run_sending_process env blocked recipients false key st σ
    (∀ ev ∈ res.events, ev.index ≤ k) ∧
    (∀ ev ∈ res.events, ev.index = k → ev = StepEvent.quotaStopped k) ∧
    (∀ m ∈ res.markCalls, m.1 < k) ∧
    res.state.last_index_sent < (k : Int) ∧
    (∀ r2, recipients[k]? = some r2 → was_sent res.state r2.email = false) ∧
    (res.state.last_index_sent + 1).toNat ≤ k := by
  intro res
  have hc1 : st.last_index_sent < (((st.last_index_sent + 1).toNat : Nat) : Int) := by omega
  obtain ⟨q1, q2, q3, q4, q5⟩ := processList_quota env blocked false key
    ((st.last_index_sent + 1).toNat)
    (recipients.drop ((st.last_index_sent + 1).toNat))
    ((st.last_index_sent + 1).toNat) st σ k hc1 hq
  have hsk : (st.last_index_sent + 1).toNat ≤ k :=
    (processList_index_ge env blocked false key
      ((st.last_index_sent + 1).toNat)
      (recipients.drop ((st.last_index_sent + 1).toNat))
      ((st.last_index_sent + 1).toNat) st σ).1 _ hq
  refine ⟨q1, q2, q3, q4, ?_, ?_⟩
  case refine_2 =>
    have h4 : res.state.last_index_sent < (k : Int) := q4
    omega
  intro r2 hr2
  have hdrop : (recipients.drop ((st.last_index_sent + 1).toNat))[
      k - (st.last_index_sent + 1).toNat]? = some r2 := by
    rw [List.getElem?_drop, Nat.add_sub_cancel' hsk]
    exact hr2
  exact q5 (k - (st.last_index_sent + 1).toNat) r2 hdrop (Nat.add_sub_cancel' hsk)

/-- Witness for `quota_stop_halts`: a quota stop at position 0 leaves the
zero ledger untouched. -/
theorem quota_stop_halts_witness :
    (run_sending_process envQuota emptyBlocked [oneRecipient] false "k" zeroState
      emptyStorage).state.last_index_sent < (0 : Int) ∧
    ((run_sending_process envQuota emptyBlocked [oneRecipient] false "k" zeroState
      emptyStorage).state.last_index_sent + 1).toNat ≤ 0 := by
  have h := quota_stop_halts envQuota emptyBlocked [oneRecipient] "k" zeroState emptyStorage 0
    (by decide) (by decide)
  exact ⟨h.2.2.2.1, h.2.2.2.2.2⟩

/-- **C4.** A recipient that is blocklisted, or whose email is recorded as
sent in the ledger at the time the engine reaches it, is never passed to the
content generator nor to the delivery transport, and no `mark_sent` call is
made for its position; the only event that position can record is a skip.
The first part states this for the exact loop configuration (state and
store) in force when the recipient is reached; the second part states it
for a whole run, with the blocklist or the run's starting ledger as the
reason. -/
theorem blocked_or_sent_never_processed (env : RunEnv) (blocked : BlockedData)
    (tm : Bool) (key : String) :
    (∀ (s0 : Nat) (r : Recipient) (rest : List Recipient) (i : Nat)
        (st : SendingState) (σ : Storage),
      is_blocked blocked r.email = true ∨ was_sent st r.email = true →
      i ∉ (processList env blocked tm key s0 (r :: rest) i st σ).genCalls ∧
      i ∉ (processList env blocked tm key s0 (r :: rest) i st σ).sendCalls ∧
      (∀ m ∈ (processList env blocked tm key s0 (r :: rest) i st σ).markCalls, m.1 ≠ i) ∧
      (∀ ev ∈ (processList env blocked tm key s0 (r :: rest) i st σ).events,
        ev.index = i → ev = StepEvent.skipped i)) ∧
    (∀ (recipients : List Recipient) (st : SendingState) (σ : Storage) (i : Nat)
        (r : Recipient),
      recipients[i]? = some r →
      is_blocked blocked r.email = true ∨ was_sent st r.email = true →
      i ∉ (run_sending_process env blocked recipients tm key st σ).genCalls ∧
      i ∉ (run_sending_process env blocked recipients tm key st σ).sendCalls ∧
      (∀ m ∈ (run_sending_process env blocked recipients tm key st σ).markCalls,
        m.1 ≠ i) ∧
      (∀ ev ∈ (run_sending_process env blocked recipients tm key st σ).events,
        ev.index = i → ev = StepEvent.skipped i)) := by
  constructor
  · intro s0 r rest i st σ hbs
    have hguard : (is_blocked blocked r.email || was_sent st r.email) = true := by
      rcases hbs with h | h <;> simp [h]
    have hj : (r :: rest)[0]? = some r := by simp
    have h := processList_guard_skip env blocked tm key s0 (r :: rest) 0 r i st σ hj hguard
    simpa using h
  · intro recipients st σ i r hget hbs
    have hguard : (is_blocked blocked r.email || was_sent st r.email) = true := by
      rcases hbs with h | h <;> simp [h]
    by_cases hlt : i < (st.last_index_sent + 1).toNat
    · obtain ⟨h1, h2, h3, h4⟩ := processList_index_ge env blocked tm key
        ((st.last_index_sent + 1).toNat)
        (recipients.drop ((st.last_index_sent + 1).toNat))
        ((st.last_index_sent + 1).toNat) st σ
      refine ⟨?_, ?_, ?_, ?_⟩
      · intro hmem; have := h2 i hmem; omega
      · intro hmem; have := h3 i hmem; omega
      · intro m hm; have := h4 m hm; omega
      · intro ev hev hevi; have := h1 ev hev; omega
    · have hle : (st.last_index_sent + 1).toNat ≤ i := le_of_not_lt hlt
      have hdrop : (recipients.drop ((st.last_index_sent + 1).toNat))[
          i - (st.last_index_sent + 1).toNat]? = some r := by
        rw [List.getElem?_drop, Nat.add_sub_cancel' hle]
        exact hget
      obtain ⟨g1, g2, g3, g4⟩ := processList_guard_skip env blocked tm key
        ((st.last_index_sent + 1).toNat)
        (recipients.drop ((st.last_index_sent + 1).toNat))
        (i - (st.last_index_sent + 1).toNat) r
        ((st.last_index_sent + 1).toNat) st σ hdrop hguard
      rw [Nat.add_sub_cancel' hle] at g1 g2 g3 g4
      exact ⟨g1, g2, g3, g4⟩

/-- Witness for `blocked_or_sent_never_processed`: with domain
`spam.example` blocked, a run over a recipient at `x@spam.example` never
invokes the content generator for it. -/
theorem blocked_or_sent_never_processed_witness :
    0 ∉ (run_sending_process envDeliver (add_domains emptyBlocked ["spam.example"])
      [⟨"Acme", "HR", "Mgr", "x@spam.example", "Dev", "u"⟩] false "k" zeroState
      emptyStorage).genCalls := by
  have h := (blocked_or_sent_never_processed envDeliver
    (add_domains emptyBlocked ["spam.example"]) false "k").2
    [⟨"Acme", "HR", "Mgr", "x@spam.example", "Dev", "u"⟩] zeroState emptyStorage 0
    ⟨"Acme", "HR", "Mgr", "x@spam.example", "Dev", "u"⟩ (by decide) (Or.inl (by decide))
  exact h.1

end Mailer
